import Mathlib

/-
Verification of the hulahoop consistent-hash ring (src/lib.rs) against its
specification.  The Rust code is shallowly embedded:

* `BTreeMap<u64, Arc<MasterNode<N>>>` becomes a list of `(Nat × MasterNode N)`
  pairs kept sorted by strictly increasing key (the well-formedness predicate
  `WF`); `btGet`/`btInsert`/`btRemove`/`btCeil` mirror `BTreeMap::get`,
  `insert`, `remove` and `range(k..).next()`.
* `Arc` pointer identity is made explicit by an `rid` field on `MasterNode`:
  every `insert` call allocates one record with a fresh `rid`, and
  `Arc::try_unwrap` succeeds exactly when no remaining map entry carries the
  same `rid`.
* The `HashSet<u64>` produced by `compute_virtual_node_hashes` is modelled as a
  list deduplicated keeping first occurrences (`dedupFirstAux`).  The one place
  where the set's per-call random iteration order is observable is the probe of
  `insert` (`virtual_node_hashes.iter().next().unwrap()`): there the probed
  element is an arbitrary member of the set, so `insert` takes an extra
  `probeIdx` argument and probes element `probeIdx % size` of the candidate
  list; theorems about `insert` quantify over `probeIdx`, covering every
  iteration order.  The removal loop of `remove_inner` walks the set in
  first-occurrence order.
* The `BuildHasher` capability is modelled by two functions on the ring:
  `nodeHash node i` is the digest obtained by hashing `node` and then writing
  `u64` value `i` (used for virtual-node positions), and `selfHash node` is the
  digest of `node` alone (used by `len`).  `get` hashes its key and afterwards
  only uses the digest, so the embedded `get` takes the key digest directly.
* `u64` digests are modelled as `Nat`; only ordering and equality of digests
  are ever used by the code, so no modular arithmetic arises.
-/

namespace Hulahoop

/-- Mirrors `struct MasterNode<N> { node: N, weight: NonZeroU64 }`; the extra
`rid` field records `Arc` pointer identity (which `insert` call allocated the
record). -/
structure MasterNode (N : Type) where
  rid : Nat
  node : N
  weight : Nat
deriving DecidableEq, Repr

/-- Mirrors `struct HashRing<N, B>`: the ordered position map plus the hash
capability (split into the two digest functions actually used) and the next
fresh `Arc` identity. -/
structure HashRing (N : Type) where
  virtual_nodes : List (Nat × MasterNode N)
  nodeHash : N → Nat → Nat
  selfHash : N → Nat
  nextId : Nat

variable {N : Type}

/-- Keys of the position map. -/
def keys (es : List (Nat × MasterNode N)) : List Nat :=
  es.map Prod.fst

/-- `BTreeMap` invariant: entries sorted by strictly increasing position. -/
@[reducible]
def WF (r : HashRing N) : Prop :=
  r.virtual_nodes.Pairwise (fun a b => a.1 < b.1)

/-- `BTreeMap::get`. -/
def btGet (k : Nat) : List (Nat × MasterNode N) → Option (MasterNode N)
  | [] => none
  | (p, m) :: rest => if p = k then some m else btGet k rest

/-- `BTreeMap::insert` (ordered insert, replacing an equal key). -/
def btInsert (k : Nat) (v : MasterNode N) : List (Nat × MasterNode N) → List (Nat × MasterNode N)
  | [] => [(k, v)]
  | (p, m) :: rest =>
    if k < p then (k, v) :: (p, m) :: rest
    else if k = p then (k, v) :: rest
    else (p, m) :: btInsert k v rest

/-- `BTreeMap::remove`, returning the removed value and the new map. -/
def btRemove (k : Nat) : List (Nat × MasterNode N) → Option (MasterNode N) × List (Nat × MasterNode N)
  | [] => (none, [])
  | (p, m) :: rest =>
    if p = k then (some m, rest)
    else
      let r := btRemove k rest
      (r.1, (p, m) :: r.2)

/-- `BTreeMap::range(k..).next()`: first entry with key at least `k`. -/
def btCeil (k : Nat) : List (Nat × MasterNode N) → Option (Nat × MasterNode N)
  | [] => none
  | (p, m) :: rest => if k ≤ p then some (p, m) else btCeil k rest

/-- Deduplication keeping first occurrences, with a seen-accumulator; models
collecting into a `HashSet` with first-occurrence iteration order. -/
def dedupFirstAux (seen : List Nat) : List Nat → List Nat
  | [] => []
  | x :: xs => if x ∈ seen then dedupFirstAux seen xs else x :: dedupFirstAux (x :: seen) xs

/-- Mirrors `HashRing::compute_virtual_node_hashes`: digests of `(node, i)` for
`i` in `0..weight`, collected into a set. -/
def compute_virtual_node_hashes (r : HashRing N) (node : N) (weight : Nat) : List Nat :=
  dedupFirstAux [] ((List.range weight).map (r.nodeHash node))

/-- Mirrors `HashRing::get_master_node_by_hash`. -/
def get_master_node_by_hash (r : HashRing N) (hash : Nat) : Option (MasterNode N) :=
  btGet hash r.virtual_nodes

/-- Mirrors `HashRing::get_master_node`: probe the map at the digest of
`(node, 0)` (the single element of the weight-1 candidate set). -/
def get_master_node (r : HashRing N) (node : N) : Option (MasterNode N) :=
  match (compute_virtual_node_hashes r node 1).head? with
  | some h => get_master_node_by_hash r h
  | none => none

/-- The `while let` loop of `HashRing::remove_inner`: walk the candidate
hashes, removing each present position and counting; at the final candidate,
if removal succeeded, attempt `Arc::try_unwrap` on the removed record (succeeds
when no remaining entry shares its `rid`). -/
def removeLoop (es : List (Nat × MasterNode N)) : List Nat → Option N × Nat × List (Nat × MasterNode N)
  | [] => (none, 0, es)
  | h :: hs =>
    match btRemove h es with
    | (some m, es2) =>
      match hs with
      | [] => (if es2.all (fun e => e.2.rid != m.rid) then some m.node else none, 1, es2)
      | _ :: _ =>
        let rest := removeLoop es2 hs
        (rest.1, rest.2.1 + 1, rest.2.2)
    | (none, es2) => removeLoop es2 hs

/-- Mirrors `HashRing::remove_inner`: find the master record via the
`(node, 0)` probe, recompute the candidate hashes for the *stored* node at the
*stored* weight, and run the removal loop. -/
def remove_inner (r : HashRing N) (node : N) : (Option N × Nat) × HashRing N :=
  match get_master_node r node with
  | some master_node =>
    let virtual_node_hashes := compute_virtual_node_hashes r master_node.node master_node.weight
    let res := removeLoop r.virtual_nodes virtual_node_hashes
    ((res.1, res.2.1), { r with virtual_nodes := res.2.2 })
  | none => ((none, 0), r)

/-- Mirrors `HashRing::remove`. -/
def remove (r : HashRing N) (node : N) : Nat × HashRing N :=
  let res := remove_inner r node
  (res.1.2, res.2)

/-- Mirrors `HashRing::insert`.  Zero weight returns early; otherwise the
candidate set is computed and `virtual_node_hashes.iter().next().unwrap()` — an
arbitrary element of the freshly collected `HashSet`, selected here by the
extra `probeIdx` argument as element `probeIdx % size` of the candidate list —
is probed against the map (triggering `remove_inner` on a hit), and a single
fresh record with the deduplicated count as weight is written at every
candidate position. -/
def insert (r : HashRing N) (node : N) (weight : Nat) (probeIdx : Nat) :
    Option N × HashRing N :=
  if weight = 0 then (none, r)
  else
    let virtual_node_hashes := compute_virtual_node_hashes r node weight
    let actual_weight := virtual_node_hashes.length
    let probe :=
      match virtual_node_hashes[probeIdx % virtual_node_hashes.length]? with
      | some h => (btGet h r.virtual_nodes).isSome
      | none => false
    let step :=
      if probe then
        let res := remove_inner r node
        (res.1.1, res.2)
      else (none, r)
    let master_node : MasterNode N := ⟨step.2.nextId, node, actual_weight⟩
    let es := virtual_node_hashes.foldl (fun acc h => btInsert h master_node acc) step.2.virtual_nodes
    (step.1, { step.2 with virtual_nodes := es, nextId := step.2.nextId + 1 })

/-- Mirrors `NonZeroU64::new`. -/
def nonZeroNew (n : Nat) : Option Nat :=
  if n = 0 then none else some n

/-- `HashRing::insert` with every panicking extraction made explicit: the
`NonZeroU64::new(weight).unwrap()`, the `iter().next().unwrap()` on the
candidate set, and the `NonZeroU64::new(actual_weight).unwrap()` each become an
`Option` bind; `none` marks the panic. -/
def insertChecked (r : HashRing N) (node : N) (weight : Nat) (probeIdx : Nat) :
    Option (Option N × HashRing N) :=
  if weight = 0 then some (none, r)
  else
    match nonZeroNew weight with
    | none => none
    | some _ =>
      let virtual_node_hashes := compute_virtual_node_hashes r node weight
      match virtual_node_hashes[probeIdx % virtual_node_hashes.length]? with
      | none => none
      | some h =>
        match nonZeroNew virtual_node_hashes.length with
        | none => none
        | some actual_weight =>
          let step :=
            if (btGet h r.virtual_nodes).isSome then
              let res := remove_inner r node
              (res.1.1, res.2)
            else (none, r)
          let master_node : MasterNode N := ⟨step.2.nextId, node, actual_weight⟩
          let es := virtual_node_hashes.foldl (fun acc h2 => btInsert h2 master_node acc) step.2.virtual_nodes
          some (step.1, { step.2 with virtual_nodes := es, nextId := step.2.nextId + 1 })

/-- Mirrors `HashRing::get`, applied to the key's digest: ceiling search, with
wraparound to the first (smallest) position when no position is at least the
digest. -/
def get (r : HashRing N) (keyHash : Nat) : Option N :=
  match btCeil keyHash r.virtual_nodes with
  | some x => some x.2.node
  | none => r.virtual_nodes.head?.map (fun e => e.2.node)

/-- Mirrors `HashRing::len`: the number of distinct node digests among the
stored records (a `HashSet` of digests). -/
def len (r : HashRing N) : Nat :=
  (dedupFirstAux [] (r.virtual_nodes.map (fun e => r.selfHash e.2.node))).length

/-- Mirrors `HashRing::is_empty`. -/
def is_empty (r : HashRing N) : Bool :=
  r.virtual_nodes.isEmpty

/-- Mirrors `HashRing::contains_node`. -/
def contains_node (r : HashRing N) (node : N) : Bool :=
  (get_master_node r node).isSome

/-! Specification artifacts: executable functions used only to state what the
operations above do (they embed no source code). -/

/-- Entries of the map whose key is not in `hs`. -/
def filterKeysOut (hs : List Nat) : List (Nat × MasterNode N) → List (Nat × MasterNode N)
  | [] => []
  | e :: es => if e.1 ∈ hs then filterKeysOut hs es else e :: filterKeysOut hs es

/-- The hashes of `hs` that occur as keys of the map `es`. -/
def presentHashes (es : List (Nat × MasterNode N)) : List Nat → List Nat
  | [] => []
  | h :: hs => if h ∈ keys es then h :: presentHashes es hs else presentHashes es hs

/-- Specification of the extracted-node result of the removal loop: the record
removed at the last candidate hash, provided that hash was present and no
surviving entry shares the record's `Arc` identity. -/
def removedSpec (es : List (Nat × MasterNode N)) (hs : List Nat) : Option N :=
  match hs.getLast? with
  | none => none
  | some h =>
    match btGet h es with
    | none => none
    | some m =>
      if (filterKeysOut hs es).all (fun e => e.2.rid != m.rid) then some m.node else none

/-! Concrete rings used in scenario theorems and counterexamples.  Nodes are
natural numbers; each ring fixes an explicit hash capability. -/

/-- Ring over the capability whose digest is the constant `1` for every input
(the `CollisionHasher` of the test suite). -/
def ringConst1 : HashRing Nat :=
  ⟨[], fun _ _ => 1, fun _ => 1, 0⟩

/-- Capability where node `0` self-collides: digests of `(0, 0)` and `(0, 1)`
are both `5`, digest of `(0, 2)` is `9`. -/
def hashSelfColl : Nat → Nat → Nat :=
  fun _ i => if i ≤ 1 then 5 else 9

/-- Ring obtained by inserting node `0` with weight `3` under `hashSelfColl`:
candidate digests `[5, 5, 9]` deduplicate to `[5, 9]`, so the stored record has
effective weight `2` and occupies positions `5` and `9`. -/
def ringSelfColl : HashRing Nat :=
  (insert ⟨[], hashSelfColl, fun n => n, 0⟩ 0 3 0).2

/-- Capability with a cross-node collision: node `0` digests to `10, 20`,
node `1` digests to `30, 20` (index `1` of node `1` collides with index `1`
of node `0`). -/
def hashCross : Nat → Nat → Nat :=
  fun n i => if n = 0 then (if i = 0 then 10 else 20) else (if i = 0 then 30 else 20)

/-- Ring with node `0` (weight 2) then node `1` (weight 2) inserted under
`hashCross`: positions `10 → node 0`, `20 → node 1` (overwritten), `30 → node 1`. -/
def ringCross : HashRing Nat :=
  (insert (insert ⟨[], hashCross, fun n => n, 0⟩ 0 2 0).2 1 2 0).2

/-- Ring holding only node `1` at position `1`, under the constant-`1`
capability. -/
def ringOnlyOne : HashRing Nat :=
  (insert ⟨[], fun _ _ => 1, fun n => n, 0⟩ 1 1 0).2

/-- Capability whose position digests separate nodes `0` and `1` but whose
node-only digest (used by `len`) is the constant `7`. -/
def hashLenColl : Nat → Nat → Nat :=
  fun n _ => if n = 0 then 10 else 20

/-- Ring holding only node `0` at position `10`, whose `len` capability digests
every node to `7`. -/
def ringLenColl : HashRing Nat :=
  (insert ⟨[], hashLenColl, fun _ => 7, 0⟩ 0 1 0).2

/-- Well-formed ring with three nodes at positions `5`, `7` and `9`
(node digest `5 + 2 * n`), used to exercise the ceiling search. -/
def ringGetDemo : HashRing Nat :=
  ⟨[(5, ⟨0, 0, 1⟩), (7, ⟨1, 1, 1⟩), (9, ⟨2, 2, 1⟩)], fun n _ => 5 + 2 * n, fun n => n, 3⟩

/-- Ring holding node `0` at position `5` under a capability that digests
node `1`'s first virtual node to the absent position `99`. -/
def ringAbsent : HashRing Nat :=
  ⟨[(5, ⟨0, 0, 1⟩)], fun n i => 5 + 94 * n + i, fun n => n, 1⟩

/-! Lemmas about the embedded `BTreeMap` operations. -/

theorem keys_cons (e : Nat × MasterNode N) (es : List (Nat × MasterNode N)) :
    keys (e :: es) = e.1 :: keys es :=
  rfl

theorem mem_keys (k : Nat) (es : List (Nat × MasterNode N)) :
    k ∈ keys es ↔ ∃ m, (k, m) ∈ es := by
  constructor
  · intro h
    obtain ⟨⟨a, b⟩, he, hfst⟩ := List.mem_map.mp h
    simp only at hfst
    subst hfst
    exact ⟨b, he⟩
  · rintro ⟨m, hm⟩
    exact List.mem_map.mpr ⟨(k, m), hm, rfl⟩

theorem btGet_cons (k p : Nat) (m : MasterNode N) (rest : List (Nat × MasterNode N)) :
    btGet k ((p, m) :: rest) = if p = k then some m else btGet k rest :=
  rfl

theorem btInsert_cons (k p : Nat) (v m : MasterNode N) (rest : List (Nat × MasterNode N)) :
    btInsert k v ((p, m) :: rest) =
      if k < p then (k, v) :: (p, m) :: rest
      else if k = p then (k, v) :: rest
      else (p, m) :: btInsert k v rest :=
  rfl

theorem btRemove_cons (k p : Nat) (m : MasterNode N) (rest : List (Nat × MasterNode N)) :
    btRemove k ((p, m) :: rest) =
      if p = k then (some m, rest)
      else ((btRemove k rest).1, (p, m) :: (btRemove k rest).2) :=
  rfl

theorem btCeil_cons (k p : Nat) (m : MasterNode N) (rest : List (Nat × MasterNode N)) :
    btCeil k ((p, m) :: rest) = if k ≤ p then some (p, m) else btCeil k rest :=
  rfl

theorem btGet_eq_none_iff (k : Nat) :
    ∀ es : List (Nat × MasterNode N), (btGet k es = none ↔ k ∉ keys es) := by
  intro es
  induction es with
  | nil => simp [btGet, keys]
  | cons e rest ih =>
    obtain ⟨p, m⟩ := e
    rw [btGet_cons, keys_cons]
    by_cases h : p = k
    · subst h
      simp
    · have hk : k ≠ p := Ne.symm h
      rw [if_neg h, ih]
      simp [hk]

theorem btGet_isSome_iff (k : Nat) (es : List (Nat × MasterNode N)) :
    (btGet k es).isSome = true ↔ k ∈ keys es := by
  rw [Option.isSome_iff_ne_none, ne_eq, btGet_eq_none_iff, not_not]

theorem mem_of_btGet_eq_some {k : Nat} {m : MasterNode N} :
    ∀ {es : List (Nat × MasterNode N)}, btGet k es = some m → (k, m) ∈ es := by
  intro es
  induction es with
  | nil => intro h; exact absurd h (by simp [btGet])
  | cons e rest ih =>
    intro h
    obtain ⟨p, n⟩ := e
    rw [btGet_cons] at h
    by_cases hp : p = k
    · subst hp
      rw [if_pos rfl] at h
      cases h
      exact List.mem_cons_self _ _
    · rw [if_neg hp] at h
      exact List.mem_cons_of_mem _ (ih h)

theorem btGet_btInsert_self (k : Nat) (v : MasterNode N) :
    ∀ es : List (Nat × MasterNode N), btGet k (btInsert k v es) = some v := by
  intro es
  induction es with
  | nil => simp [btInsert, btGet]
  | cons e rest ih =>
    obtain ⟨p, m⟩ := e
    rw [btInsert_cons]
    rcases Nat.lt_trichotomy k p with h | h | h
    · rw [if_pos h, btGet_cons, if_pos rfl]
    · subst h
      rw [if_neg (Nat.lt_irrefl k), if_pos rfl, btGet_cons, if_pos rfl]
    · rw [if_neg (Nat.lt_asymm h), if_neg (Ne.symm (Nat.ne_of_lt h)), btGet_cons,
        if_neg (Nat.ne_of_lt h), ih]

theorem btGet_btInsert_ne (k k2 : Nat) (v : MasterNode N) (h : k ≠ k2) :
    ∀ es : List (Nat × MasterNode N), btGet k (btInsert k2 v es) = btGet k es := by
  intro es
  induction es with
  | nil =>
    rw [show btInsert k2 v ([] : List (Nat × MasterNode N)) = [(k2, v)] from rfl,
      btGet_cons, if_neg (Ne.symm h)]
  | cons e rest ih =>
    obtain ⟨p, m⟩ := e
    rw [btInsert_cons]
    rcases Nat.lt_trichotomy k2 p with h1 | h1 | h1
    · rw [if_pos h1, btGet_cons, if_neg (Ne.symm h), btGet_cons]
    · subst h1
      rw [if_neg (Nat.lt_irrefl k2), if_pos rfl, btGet_cons, if_neg (Ne.symm h),
        btGet_cons, if_neg (Ne.symm h)]
    · rw [if_neg (Nat.lt_asymm h1), if_neg (Ne.symm (Nat.ne_of_lt h1)), btGet_cons,
        btGet_cons, ih]

theorem mem_keys_btInsert (q k : Nat) (v : MasterNode N) :
    ∀ es : List (Nat × MasterNode N), q ∈ keys (btInsert k v es) → q = k ∨ q ∈ keys es := by
  intro es
  induction es with
  | nil =>
    intro h
    rw [show btInsert k v ([] : List (Nat × MasterNode N)) = [(k, v)] from rfl, keys_cons] at h
    rcases List.mem_cons.mp h with h | h
    · exact Or.inl h
    · exact absurd h (by simp [keys])
  | cons e rest ih =>
    intro h
    obtain ⟨p, m⟩ := e
    rw [btInsert_cons] at h
    rcases Nat.lt_trichotomy k p with h1 | h1 | h1
    · rw [if_pos h1] at h
      simp only [keys_cons, List.mem_cons] at h ⊢
      exact h
    · subst h1
      rw [if_neg (Nat.lt_irrefl k), if_pos rfl] at h
      simp only [keys_cons, List.mem_cons] at h ⊢
      rcases h with h | h
      · exact Or.inl h
      · exact Or.inr (Or.inr h)
    · rw [if_neg (Nat.lt_asymm h1), if_neg (Ne.symm (Nat.ne_of_lt h1))] at h
      simp only [keys_cons, List.mem_cons] at h ⊢
      rcases h with h | h
      · exact Or.inr (Or.inl h)
      · rcases ih h with h2 | h2
        · exact Or.inl h2
        · exact Or.inr (Or.inr h2)

theorem btInsert_perm (k : Nat) (v : MasterNode N) :
    ∀ es : List (Nat × MasterNode N), k ∉ keys es → (btInsert k v es).Perm ((k, v) :: es) := by
  intro es
  induction es with
  | nil => intro _; exact List.Perm.refl _
  | cons e rest ih =>
    intro h
    obtain ⟨p, m⟩ := e
    rw [keys_cons] at h
    have hkp : k ≠ p := by
      intro he
      exact h (by rw [he]; exact List.mem_cons_self _ _)
    have hrest : k ∉ keys rest := fun hm => h (List.mem_cons_of_mem _ hm)
    rw [btInsert_cons]
    rcases Nat.lt_trichotomy k p with h1 | h1 | h1
    · rw [if_pos h1]
    · exact absurd h1 hkp
    · rw [if_neg (Nat.lt_asymm h1), if_neg hkp]
      exact ((ih hrest).cons (p, m)).trans (List.Perm.swap _ _ _)

theorem mem_btInsert (k : Nat) (v : MasterNode N) :
    ∀ es : List (Nat × MasterNode N), ∀ e, e ∈ btInsert k v es → e = (k, v) ∨ e ∈ es := by
  intro es
  induction es with
  | nil =>
    intro e he
    rw [show btInsert k v ([] : List (Nat × MasterNode N)) = [(k, v)] from rfl] at he
    rcases List.mem_cons.mp he with h | h
    · exact Or.inl h
    · exact absurd h (List.not_mem_nil _)
  | cons p rest ih =>
    intro e he
    obtain ⟨q, n⟩ := p
    rw [btInsert_cons] at he
    rcases Nat.lt_trichotomy k q with h1 | h1 | h1
    · rw [if_pos h1] at he
      rcases List.mem_cons.mp he with h | h
      · exact Or.inl h
      · exact Or.inr h
    · subst h1
      rw [if_neg (Nat.lt_irrefl k), if_pos rfl] at he
      rcases List.mem_cons.mp he with h | h
      · exact Or.inl h
      · exact Or.inr (List.mem_cons_of_mem _ h)
    · rw [if_neg (Nat.lt_asymm h1), if_neg (Ne.symm (Nat.ne_of_lt h1))] at he
      rcases List.mem_cons.mp he with h | h
      · exact Or.inr (by rw [h]; exact List.mem_cons_self _ _)
      · rcases ih e h with h2 | h2
        · exact Or.inl h2
        · exact Or.inr (List.mem_cons_of_mem _ h2)

theorem mem_foldl_btInsert (m : MasterNode N) :
    ∀ hs : List Nat, ∀ es : List (Nat × MasterNode N), ∀ e,
      e ∈ hs.foldl (fun acc x => btInsert x m acc) es → e.2 = m ∨ e ∈ es := by
  intro hs
  induction hs with
  | nil =>
    intro es e he
    exact Or.inr he
  | cons x t ih =>
    intro es e he
    rw [List.foldl_cons] at he
    rcases ih (btInsert x m es) e he with h | h
    · exact Or.inl h
    · rcases mem_btInsert x m es e h with h2 | h2
      · exact Or.inl (by rw [h2])
      · exact Or.inr h2

/-! Lemmas about `filterKeysOut`, `presentHashes` and `btRemove`. -/

theorem filterKeysOut_cons (hs : List Nat) (e : Nat × MasterNode N)
    (es : List (Nat × MasterNode N)) :
    filterKeysOut hs (e :: es) =
      if e.1 ∈ hs then filterKeysOut hs es else e :: filterKeysOut hs es :=
  rfl

theorem filterKeysOut_eq_self (hs : List Nat) :
    ∀ es : List (Nat × MasterNode N), (∀ e ∈ es, e.1 ∉ hs) → filterKeysOut hs es = es := by
  intro es
  induction es with
  | nil => intro _; rfl
  | cons e rest ih =>
    intro h
    rw [filterKeysOut_cons, if_neg (h e (List.mem_cons_self _ _)),
      ih fun x hx => h x (List.mem_cons_of_mem _ hx)]

theorem mem_filterKeysOut (hs : List Nat) (x : Nat × MasterNode N) :
    ∀ es : List (Nat × MasterNode N), (x ∈ filterKeysOut hs es ↔ x ∈ es ∧ x.1 ∉ hs) := by
  intro es
  induction es with
  | nil => simp [filterKeysOut]
  | cons e rest ih =>
    rw [filterKeysOut_cons]
    by_cases h : e.1 ∈ hs
    · rw [if_pos h, ih]
      constructor
      · rintro ⟨h1, h2⟩
        exact ⟨List.mem_cons_of_mem _ h1, h2⟩
      · rintro ⟨h1, h2⟩
        rcases List.mem_cons.mp h1 with rfl | h1
        · exact absurd h h2
        · exact ⟨h1, h2⟩
    · rw [if_neg h]
      constructor
      · intro hx
        rcases List.mem_cons.mp hx with rfl | hx
        · exact ⟨List.mem_cons_self _ _, h⟩
        · rw [ih] at hx
          exact ⟨List.mem_cons_of_mem _ hx.1, hx.2⟩
      · rintro ⟨h1, h2⟩
        rcases List.mem_cons.mp h1 with rfl | h1
        · exact List.mem_cons_self _ _
        · exact List.mem_cons_of_mem _ (ih.mpr ⟨h1, h2⟩)

theorem filterKeysOut_sublist (hs : List Nat) :
    ∀ es : List (Nat × MasterNode N), (filterKeysOut hs es).Sublist es := by
  intro es
  induction es with
  | nil => exact List.Sublist.refl _
  | cons e rest ih =>
    rw [filterKeysOut_cons]
    by_cases h : e.1 ∈ hs
    · rw [if_pos h]
      exact ih.trans (List.sublist_cons_self _ _)
    · rw [if_neg h]
      exact ih.cons₂ e

theorem keys_filterKeysOut_nodup (hs : List Nat) (es : List (Nat × MasterNode N))
    (hk : (keys es).Nodup) : (keys (filterKeysOut hs es)).Nodup :=
  List.Sublist.nodup (List.Sublist.map Prod.fst (filterKeysOut_sublist hs es)) hk

theorem btGet_filterKeysOut_mem (hs : List Nat) (k : Nat) (hk : k ∈ hs) :
    ∀ es : List (Nat × MasterNode N), btGet k (filterKeysOut hs es) = none := by
  intro es
  induction es with
  | nil => rfl
  | cons e rest ih =>
    obtain ⟨p, m⟩ := e
    rw [filterKeysOut_cons]
    by_cases h : p ∈ hs
    · rw [if_pos h]
      exact ih
    · have hpk : ¬ p = k := by
        intro he
        rw [he] at h
        exact h hk
      rw [if_neg h, btGet_cons, if_neg hpk]
      exact ih

theorem btGet_filterKeysOut_not_mem (hs : List Nat) (k : Nat) (hk : k ∉ hs) :
    ∀ es : List (Nat × MasterNode N), btGet k (filterKeysOut hs es) = btGet k es := by
  intro es
  induction es with
  | nil => rfl
  | cons e rest ih =>
    obtain ⟨p, m⟩ := e
    rw [filterKeysOut_cons]
    by_cases h : p ∈ hs
    · have hpk : ¬ p = k := by
        intro he
        rw [he] at h
        exact hk h
      rw [if_pos h, btGet_cons, if_neg hpk, ih]
    · rw [if_neg h, btGet_cons, btGet_cons, ih]

theorem mem_keys_filterKeysOut (hs : List Nat) (k : Nat) (es : List (Nat × MasterNode N)) :
    k ∈ keys (filterKeysOut hs es) ↔ k ∈ keys es ∧ k ∉ hs := by
  constructor
  · intro h
    obtain ⟨m, hm⟩ := (mem_keys k _).mp h
    rw [mem_filterKeysOut] at hm
    exact ⟨(mem_keys k es).mpr ⟨m, hm.1⟩, hm.2⟩
  · rintro ⟨h1, h2⟩
    obtain ⟨m, hm⟩ := (mem_keys k es).mp h1
    exact (mem_keys k _).mpr ⟨m, (mem_filterKeysOut hs (k, m) es).mpr ⟨hm, h2⟩⟩

theorem filterKeysOut_pair (h : Nat) (hs : List Nat) :
    ∀ es : List (Nat × MasterNode N),
      filterKeysOut hs (filterKeysOut [h] es) = filterKeysOut (h :: hs) es := by
  intro es
  induction es with
  | nil => rfl
  | cons e rest ih =>
    rw [filterKeysOut_cons [h] e rest, filterKeysOut_cons (h :: hs) e rest]
    by_cases h1 : e.1 = h
    · have hm : e.1 ∈ [h] := by rw [h1]; exact List.mem_cons_self _ _
      have hm2 : e.1 ∈ h :: hs := by rw [h1]; exact List.mem_cons_self _ _
      rw [if_pos hm, if_pos hm2, ih]
    · have hm : e.1 ∉ [h] := by
        intro hc
        rcases List.mem_cons.mp hc with hc | hc
        · exact h1 hc
        · exact absurd hc (List.not_mem_nil _)
      rw [if_neg hm, filterKeysOut_cons hs e (filterKeysOut [h] rest)]
      by_cases h2 : e.1 ∈ hs
      · rw [if_pos h2, if_pos (List.mem_cons_of_mem _ h2), ih]
      · have hm2 : e.1 ∉ h :: hs := by
          intro hc
          rcases List.mem_cons.mp hc with hc | hc
          · exact h1 hc
          · exact h2 hc
        rw [if_neg h2, if_neg hm2, ih]

theorem filterKeysOut_of_not_key (h : Nat) (hs : List Nat) :
    ∀ es : List (Nat × MasterNode N), h ∉ keys es →
      filterKeysOut (h :: hs) es = filterKeysOut hs es := by
  intro es
  induction es with
  | nil => intro _; rfl
  | cons e rest ih =>
    intro hm
    rw [keys_cons] at hm
    have he : e.1 ≠ h := by
      intro hc
      exact hm (by rw [← hc]; exact List.mem_cons_self _ _)
    have hrest : h ∉ keys rest := fun hc => hm (List.mem_cons_of_mem _ hc)
    rw [filterKeysOut_cons, filterKeysOut_cons]
    by_cases h2 : e.1 ∈ hs
    · rw [if_pos h2, if_pos (List.mem_cons_of_mem _ h2), ih hrest]
    · have hm2 : e.1 ∉ h :: hs := by
        intro hc
        rcases List.mem_cons.mp hc with hc | hc
        · exact he hc
        · exact h2 hc
      rw [if_neg h2, if_neg hm2, ih hrest]

theorem btRemove_eq (k : Nat) :
    ∀ es : List (Nat × MasterNode N), (keys es).Nodup →
      btRemove k es = (btGet k es, filterKeysOut [k] es) := by
  intro es
  induction es with
  | nil => intro _; rfl
  | cons e rest ih =>
    intro hk
    obtain ⟨p, m⟩ := e
    rw [keys_cons, List.nodup_cons] at hk
    by_cases hp : p = k
    · subst hp
      have hrest : filterKeysOut [p] rest = rest := by
        apply filterKeysOut_eq_self
        intro x hx hc
        rcases List.mem_cons.mp hc with hc | hc
        · exact hk.1 (by rw [← hc]; exact (mem_keys _ _).mpr ⟨x.2, hx⟩)
        · exact absurd hc (List.not_mem_nil _)
      rw [btRemove_cons, if_pos rfl, btGet_cons, if_pos rfl,
        filterKeysOut_cons, if_pos (List.mem_cons_self _ _), hrest]
    · have hm : (p, m).1 ∉ [k] := by
        intro hc
        rcases List.mem_cons.mp hc with hc | hc
        · exact hp hc
        · exact absurd hc (List.not_mem_nil _)
      rw [btRemove_cons, if_neg hp, btGet_cons, if_neg hp,
        filterKeysOut_cons, if_neg hm, ih hk.2]

theorem presentHashes_cons (es : List (Nat × MasterNode N)) (h : Nat) (hs : List Nat) :
    presentHashes es (h :: hs) =
      if h ∈ keys es then h :: presentHashes es hs else presentHashes es hs :=
  rfl

theorem presentHashes_congr :
    ∀ hs : List Nat, ∀ es es2 : List (Nat × MasterNode N),
      (∀ h ∈ hs, (h ∈ keys es ↔ h ∈ keys es2)) → presentHashes es hs = presentHashes es2 hs := by
  intro hs
  induction hs with
  | nil => intro _ _ _; rfl
  | cons h hs ih =>
    intro es es2 hcong
    rw [presentHashes_cons, presentHashes_cons]
    by_cases h1 : h ∈ keys es
    · rw [if_pos h1, if_pos ((hcong h (List.mem_cons_self _ _)).mp h1),
        ih es es2 fun x hx => hcong x (List.mem_cons_of_mem _ hx)]
    · rw [if_neg h1, if_neg fun hc => h1 ((hcong h (List.mem_cons_self _ _)).mpr hc),
        ih es es2 fun x hx => hcong x (List.mem_cons_of_mem _ hx)]

theorem presentHashes_all (es : List (Nat × MasterNode N)) :
    ∀ hs : List Nat, (∀ x ∈ hs, x ∈ keys es) → presentHashes es hs = hs := by
  intro hs
  induction hs with
  | nil => intro _; rfl
  | cons x t ih =>
    intro h
    rw [presentHashes_cons, if_pos (h x (List.mem_cons_self _ _)),
      ih fun y hy => h y (List.mem_cons_of_mem _ hy)]

/-! Lemmas about `dedupFirstAux` (the `HashSet` model). -/

theorem mem_dedupFirstAux (x : Nat) :
    ∀ l seen : List Nat, (x ∈ dedupFirstAux seen l ↔ x ∈ l ∧ x ∉ seen) := by
  intro l
  induction l with
  | nil => intro seen; simp [dedupFirstAux]
  | cons y ys ih =>
    intro seen
    by_cases h : y ∈ seen
    · rw [dedupFirstAux, if_pos h, ih]
      constructor
      · rintro ⟨h1, h2⟩
        exact ⟨List.mem_cons_of_mem _ h1, h2⟩
      · rintro ⟨h1, h2⟩
        rcases List.mem_cons.mp h1 with rfl | h1
        · exact absurd h h2
        · exact ⟨h1, h2⟩
    · rw [dedupFirstAux, if_neg h]
      constructor
      · intro hx
        rcases List.mem_cons.mp hx with rfl | hx
        · exact ⟨List.mem_cons_self _ _, h⟩
        · rw [ih] at hx
          refine ⟨List.mem_cons_of_mem _ hx.1, fun hc => hx.2 (List.mem_cons_of_mem _ hc)⟩
      · rintro ⟨h1, h2⟩
        rcases List.mem_cons.mp h1 with rfl | h1
        · exact List.mem_cons_self _ _
        · by_cases hy : x = y
          · subst hy
            exact List.mem_cons_self _ _
          · refine List.mem_cons_of_mem _ ((ih _).mpr ⟨h1, ?_⟩)
            intro hc
            rcases List.mem_cons.mp hc with hc | hc
            · exact hy hc
            · exact h2 hc

theorem dedupFirstAux_nodup : ∀ l seen : List Nat, (dedupFirstAux seen l).Nodup := by
  intro l
  induction l with
  | nil => intro seen; simp [dedupFirstAux]
  | cons y ys ih =>
    intro seen
    by_cases h : y ∈ seen
    · rw [dedupFirstAux, if_pos h]
      exact ih seen
    · rw [dedupFirstAux, if_neg h]
      refine List.nodup_cons.mpr ⟨?_, ih (y :: seen)⟩
      intro hc
      exact ((mem_dedupFirstAux _ _ _).mp hc).2 (List.mem_cons_self _ _)

theorem dedupFirstAux_eq_self :
    ∀ l : List Nat, l.Nodup → ∀ seen : List Nat, (∀ x ∈ l, x ∉ seen) →
      dedupFirstAux seen l = l := by
  intro l
  induction l with
  | nil => intro _ seen _; rfl
  | cons y ys ih =>
    intro hnd seen hd
    rw [List.nodup_cons] at hnd
    rw [dedupFirstAux, if_neg (hd y (List.mem_cons_self _ _))]
    congr 1
    apply ih hnd.2 (y :: seen)
    intro x hx hc
    rcases List.mem_cons.mp hc with rfl | hc
    · exact hnd.1 hx
    · exact hd x (List.mem_cons_of_mem _ hx) hc

theorem dedupFirstAux_eq_nil :
    ∀ l seen : List Nat, (∀ x ∈ l, x ∈ seen) → dedupFirstAux seen l = [] := by
  intro l
  induction l with
  | nil => intro _ _; rfl
  | cons y ys ih =>
    intro seen hsub
    rw [dedupFirstAux, if_pos (hsub y (List.mem_cons_self _ _))]
    exact ih seen fun x hx => hsub x (List.mem_cons_of_mem _ hx)

theorem dedupFirstAux_const (l : List Nat) (a : Nat) (hne : l ≠ [])
    (hall : ∀ x ∈ l, x = a) : dedupFirstAux [] l = [a] := by
  cases l with
  | nil => exact absurd rfl hne
  | cons y ys =>
    have hy : y = a := hall y (List.mem_cons_self _ _)
    subst hy
    rw [dedupFirstAux, if_neg (List.not_mem_nil y)]
    congr 1
    apply dedupFirstAux_eq_nil
    intro x hx
    rw [hall x (List.mem_cons_of_mem _ hx)]
    exact List.mem_cons_self _ _

/-! Lemmas about the candidate hash set. -/

theorem compute_virtual_node_hashes_one (r : HashRing N) (node : N) :
    compute_virtual_node_hashes r node 1 = [r.nodeHash node 0] := by
  rw [compute_virtual_node_hashes, show List.range 1 = [0] by decide, List.map_cons,
    List.map_nil, dedupFirstAux, if_neg (List.not_mem_nil _)]
  rfl

theorem get_master_node_eq_btGet (r : HashRing N) (node : N) :
    get_master_node r node = btGet (r.nodeHash node 0) r.virtual_nodes := by
  rw [get_master_node, compute_virtual_node_hashes_one]
  rfl

theorem compute_virtual_node_hashes_nodup (r : HashRing N) (node : N) (w : Nat) :
    (compute_virtual_node_hashes r node w).Nodup :=
  dedupFirstAux_nodup _ _

theorem mem_compute_virtual_node_hashes (r : HashRing N) (node : N) (w h : Nat) :
    h ∈ compute_virtual_node_hashes r node w ↔ ∃ i, i < w ∧ r.nodeHash node i = h := by
  rw [compute_virtual_node_hashes, mem_dedupFirstAux]
  simp [List.mem_map, List.mem_range]

theorem compute_virtual_node_hashes_succ (r : HashRing N) (node : N) (k : Nat) :
    compute_virtual_node_hashes r node (k + 1) =
      r.nodeHash node 0 :: dedupFirstAux [r.nodeHash node 0]
        ((List.range k).map (fun i => r.nodeHash node (i + 1))) := by
  rw [compute_virtual_node_hashes, List.range_succ_eq_map, List.map_cons, List.map_map,
    dedupFirstAux, if_neg (List.not_mem_nil _)]
  rfl

theorem compute_virtual_node_hashes_ne_nil (r : HashRing N) (node : N) (w : Nat)
    (hw : 1 ≤ w) : compute_virtual_node_hashes r node w ≠ [] := by
  obtain ⟨k, rfl⟩ : ∃ k, w = k + 1 := ⟨w - 1, (Nat.succ_pred_eq_of_pos hw).symm⟩
  rw [compute_virtual_node_hashes_succ]
  exact List.cons_ne_nil _ _

theorem compute_virtual_node_hashes_head (r : HashRing N) (node : N) (w : Nat)
    (hw : 1 ≤ w) :
    (compute_virtual_node_hashes r node w).head? = some (r.nodeHash node 0) := by
  obtain ⟨k, rfl⟩ : ∃ k, w = k + 1 := ⟨w - 1, (Nat.succ_pred_eq_of_pos hw).symm⟩
  rw [compute_virtual_node_hashes_succ]
  rfl

theorem hash_zero_mem_compute (r : HashRing N) (node : N) (w : Nat) (hw : 1 ≤ w) :
    r.nodeHash node 0 ∈ compute_virtual_node_hashes r node w :=
  (mem_compute_virtual_node_hashes r node w _).mpr ⟨0, hw, rfl⟩

theorem compute_virtual_node_hashes_of_inj (r : HashRing N) (node : N) (w : Nat)
    (hinj : ∀ i, i < w → ∀ j, j < w → i ≠ j → r.nodeHash node i ≠ r.nodeHash node j) :
    compute_virtual_node_hashes r node w = (List.range w).map (r.nodeHash node) := by
  apply dedupFirstAux_eq_self
  · rw [List.nodup_map_iff_inj_on (List.nodup_range w)]
    intro i hi j hj hne
    by_contra hcon
    exact hinj i (List.mem_range.mp hi) j (List.mem_range.mp hj) hcon hne
  · intro x _
    exact List.not_mem_nil x

theorem WF_keys_nodup (r : HashRing N) (h : WF r) : (keys r.virtual_nodes).Nodup :=
  List.Pairwise.map Prod.fst (fun _ _ hab => Nat.ne_of_lt hab) h

theorem filterKeysOut_singleton_of_none (h : Nat) (es : List (Nat × MasterNode N))
    (hbg : btGet h es = none) : filterKeysOut [h] es = es := by
  have hmem : h ∉ keys es := (btGet_eq_none_iff h es).mp hbg
  apply filterKeysOut_eq_self
  intro e he hc
  rcases List.mem_cons.mp hc with hc | hc
  · exact hmem (by rw [← hc]; exact (mem_keys _ _).mpr ⟨e.2, he⟩)
  · exact absurd hc (List.not_mem_nil _)

theorem getLast?_single (a : Nat) : [a].getLast? = some a :=
  rfl

theorem getLast?_cons_exists (h0 : Nat) (t : List Nat) :
    ∃ hl, (h0 :: t).getLast? = some hl ∧ hl ∈ h0 :: t := by
  cases hgl : (h0 :: t).getLast? with
  | none => exact absurd hgl (by simp)
  | some hl =>
    refine ⟨hl, rfl, ?_⟩
    obtain ⟨hne, heq⟩ := List.mem_getLast?_eq_getLast (l := h0 :: t) (x := hl)
      (by rw [Option.mem_def]; exact hgl)
    rw [heq]
    exact List.getLast_mem hne

/-! Specification of the removal loop. -/

theorem removeLoop_nil (es : List (Nat × MasterNode N)) :
    removeLoop es [] = (none, 0, es) :=
  rfl

theorem removeLoop_final :
    ∀ hs : List Nat, ∀ es : List (Nat × MasterNode N), (keys es).Nodup →
      (removeLoop es hs).2.2 = filterKeysOut hs es := by
  intro hs
  induction hs with
  | nil =>
    intro es _
    rw [removeLoop_nil]
    exact (filterKeysOut_eq_self [] es fun e _ => List.not_mem_nil e.1).symm
  | cons h t ih =>
    intro es hk
    have hkf : (keys (filterKeysOut [h] es)).Nodup := keys_filterKeysOut_nodup [h] es hk
    simp only [removeLoop]
    split
    next m es2 heq =>
      rw [btRemove_eq h es hk, Prod.mk.injEq] at heq
      obtain ⟨hbg, hes2⟩ := heq
      subst hes2
      cases t with
      | nil => rfl
      | cons h2 t2 =>
        show (removeLoop (filterKeysOut [h] es) (h2 :: t2)).2.2 = filterKeysOut (h :: h2 :: t2) es
        rw [ih (filterKeysOut [h] es) hkf, filterKeysOut_pair]
    next es2 heq =>
      rw [btRemove_eq h es hk, Prod.mk.injEq] at heq
      obtain ⟨hbg, hes2⟩ := heq
      subst hes2
      rw [ih (filterKeysOut [h] es) hkf, filterKeysOut_pair]

theorem removeLoop_count :
    ∀ hs : List Nat, hs.Nodup → ∀ es : List (Nat × MasterNode N), (keys es).Nodup →
      (removeLoop es hs).2.1 = (presentHashes es hs).length := by
  intro hs
  induction hs with
  | nil => intro _ es _; rfl
  | cons h t ih =>
    intro hnd es hk
    rw [List.nodup_cons] at hnd
    have hkf : (keys (filterKeysOut [h] es)).Nodup := keys_filterKeysOut_nodup [h] es hk
    have hcong : presentHashes (filterKeysOut [h] es) t = presentHashes es t := by
      apply presentHashes_congr
      intro x hx
      rw [mem_keys_filterKeysOut]
      have hxh : x ∉ [h] := by
        intro hm
        rcases List.mem_cons.mp hm with hm | hm
        · subst hm
          exact hnd.1 hx
        · exact absurd hm (List.not_mem_nil _)
      exact ⟨fun hc => hc.1, fun hc => ⟨hc, hxh⟩⟩
    simp only [removeLoop]
    split
    next m es2 heq =>
      rw [btRemove_eq h es hk, Prod.mk.injEq] at heq
      obtain ⟨hbg, hes2⟩ := heq
      subst hes2
      have hmem : h ∈ keys es := by
        rw [← btGet_isSome_iff, hbg]
        rfl
      cases t with
      | nil =>
        rw [presentHashes_cons, if_pos hmem]
        rfl
      | cons h2 t2 =>
        show (removeLoop (filterKeysOut [h] es) (h2 :: t2)).2.1 + 1 =
          (presentHashes es (h :: h2 :: t2)).length
        rw [ih hnd.2 (filterKeysOut [h] es) hkf, hcong, presentHashes_cons es h (h2 :: t2),
          if_pos hmem]
        rfl
    next es2 heq =>
      rw [btRemove_eq h es hk, Prod.mk.injEq] at heq
      obtain ⟨hbg, hes2⟩ := heq
      subst hes2
      have hmem : h ∉ keys es := (btGet_eq_none_iff h es).mp hbg
      rw [filterKeysOut_singleton_of_none h es hbg, ih hnd.2 es hk,
        presentHashes_cons, if_neg hmem]

theorem removeLoop_removed :
    ∀ hs : List Nat, hs.Nodup → ∀ es : List (Nat × MasterNode N), (keys es).Nodup →
      (removeLoop es hs).1 = removedSpec es hs := by
  intro hs
  induction hs with
  | nil => intro _ es _; rfl
  | cons h t ih =>
    intro hnd es hk
    rw [List.nodup_cons] at hnd
    have hkf : (keys (filterKeysOut [h] es)).Nodup := keys_filterKeysOut_nodup [h] es hk
    simp only [removeLoop]
    split
    next m es2 heq =>
      rw [btRemove_eq h es hk, Prod.mk.injEq] at heq
      obtain ⟨hbg, hes2⟩ := heq
      subst hes2
      cases t with
      | nil =>
        simp only [removedSpec, getLast?_single, hbg]
      | cons h2 t2 =>
        show (removeLoop (filterKeysOut [h] es) (h2 :: t2)).1 = removedSpec es (h :: h2 :: t2)
        rw [ih hnd.2 (filterKeysOut [h] es) hkf]
        cases hgl : (h2 :: t2).getLast? with
        | none => exact absurd hgl (by simp)
        | some hl =>
          have hlmem : hl ∈ h2 :: t2 := by
            obtain ⟨hne, heq⟩ := List.mem_getLast?_eq_getLast (l := h2 :: t2) (x := hl)
              (by rw [Option.mem_def]; exact hgl)
            rw [heq]
            exact List.getLast_mem hne
          have hlh : hl ∉ [h] := by
            intro hc
            rcases List.mem_cons.mp hc with hc | hc
            · subst hc
              exact hnd.1 hlmem
            · exact absurd hc (List.not_mem_nil _)
          simp only [removedSpec, List.getLast?_cons_cons, hgl,
            btGet_filterKeysOut_not_mem [h] hl hlh, filterKeysOut_pair]
    next es2 heq =>
      rw [btRemove_eq h es hk, Prod.mk.injEq] at heq
      obtain ⟨hbg, hes2⟩ := heq
      subst hes2
      have hmem : h ∉ keys es := (btGet_eq_none_iff h es).mp hbg
      rw [filterKeysOut_singleton_of_none h es hbg]
      cases t with
      | nil =>
        simp only [removeLoop_nil, removedSpec, getLast?_single, hbg]
      | cons h2 t2 =>
        rw [ih hnd.2 es hk]
        simp only [removedSpec, List.getLast?_cons_cons,
          filterKeysOut_of_not_key h (h2 :: t2) es hmem]

/-! Lemmas about writing the candidate positions (the `for` loop of `insert`). -/

theorem btGet_foldl_not_mem (m : MasterNode N) (k : Nat) :
    ∀ hs : List Nat, k ∉ hs → ∀ es : List (Nat × MasterNode N),
      btGet k (hs.foldl (fun acc x => btInsert x m acc) es) = btGet k es := by
  intro hs
  induction hs with
  | nil => intro _ es; rfl
  | cons x t ih =>
    intro hk es
    have hkx : k ≠ x := by
      intro he
      exact hk (by rw [he]; exact List.mem_cons_self _ _)
    have hkt : k ∉ t := fun hm => hk (List.mem_cons_of_mem _ hm)
    rw [List.foldl_cons, ih hkt, btGet_btInsert_ne k x m hkx]

theorem btGet_foldl_mem (m : MasterNode N) (k : Nat) :
    ∀ hs : List Nat, hs.Nodup → k ∈ hs → ∀ es : List (Nat × MasterNode N),
      btGet k (hs.foldl (fun acc x => btInsert x m acc) es) = some m := by
  intro hs
  induction hs with
  | nil => intro _ hk es; exact absurd hk (List.not_mem_nil k)
  | cons x t ih =>
    intro hnd hk es
    rw [List.nodup_cons] at hnd
    rw [List.foldl_cons]
    rcases List.mem_cons.mp hk with rfl | hk2
    · rw [btGet_foldl_not_mem m k t hnd.1 _, btGet_btInsert_self]
    · exact ih hnd.2 hk2 _

theorem foldl_btInsert_perm (m : MasterNode N) :
    ∀ hs : List Nat, hs.Nodup → ∀ es : List (Nat × MasterNode N),
      (∀ h ∈ hs, h ∉ keys es) →
      (hs.foldl (fun acc x => btInsert x m acc) es).Perm
        ((hs.map fun h => (h, m)) ++ es) := by
  intro hs
  induction hs with
  | nil => intro _ es _; exact List.Perm.refl _
  | cons x t ih =>
    intro hnd es hfresh
    rw [List.nodup_cons] at hnd
    rw [List.foldl_cons, List.map_cons]
    have hx : x ∉ keys es := hfresh x (List.mem_cons_self _ _)
    have hfresh2 : ∀ h2 ∈ t, h2 ∉ keys (btInsert x m es) := by
      intro h2 hm hc
      rcases mem_keys_btInsert h2 x m es hc with hc | hc
      · subst hc
        exact hnd.1 hm
      · exact hfresh h2 (List.mem_cons_of_mem _ hm) hc
    refine (ih hnd.2 (btInsert x m es) hfresh2).trans ?_
    refine (List.Perm.append_left (t.map fun h => (h, m)) (btInsert_perm x m es hx)).trans ?_
    exact List.perm_middle

/-! Lemmas about the ceiling search used by `get`. -/

theorem btCeil_eq_none_iff (k : Nat) :
    ∀ es : List (Nat × MasterNode N), (btCeil k es = none ↔ ∀ p m, (p, m) ∈ es → p < k) := by
  intro es
  induction es with
  | nil => simp [btCeil]
  | cons e rest ih =>
    obtain ⟨p, m⟩ := e
    rw [btCeil_cons]
    by_cases h : k ≤ p
    · rw [if_pos h]
      constructor
      · intro hc
        exact absurd hc (by simp)
      · intro hall
        exact absurd (hall p m (List.mem_cons_self _ _)) (Nat.not_lt.mpr h)
    · rw [if_neg h, ih]
      have hpk : p < k := Nat.not_le.mp h
      constructor
      · intro hall q n hm
        rcases List.mem_cons.mp hm with he | hm2
        · cases he
          exact hpk
        · exact hall q n hm2
      · intro hall q n hm
        exact hall q n (List.mem_cons_of_mem _ hm)

theorem btCeil_mem (k : Nat) :
    ∀ es : List (Nat × MasterNode N), ∀ p : Nat, ∀ m : MasterNode N,
      btCeil k es = some (p, m) → (p, m) ∈ es ∧ k ≤ p := by
  intro es
  induction es with
  | nil =>
    intro p m h
    exact absurd h (by simp [btCeil])
  | cons e rest ih =>
    intro p m h
    obtain ⟨q, n⟩ := e
    rw [btCeil_cons] at h
    by_cases h1 : k ≤ q
    · rw [if_pos h1] at h
      cases h
      exact ⟨List.mem_cons_self _ _, h1⟩
    · rw [if_neg h1] at h
      obtain ⟨hm, hk⟩ := ih p m h
      exact ⟨List.mem_cons_of_mem _ hm, hk⟩

theorem btCeil_min (k : Nat) :
    ∀ es : List (Nat × MasterNode N), es.Pairwise (fun a b => a.1 < b.1) →
      ∀ p m, btCeil k es = some (p, m) →
      ∀ q n, (q, n) ∈ es → k ≤ q → p ≤ q := by
  intro es
  induction es with
  | nil =>
    intro _ p m h
    exact absurd h (by simp [btCeil])
  | cons e rest ih =>
    intro hp p m h q n hm hk
    obtain ⟨a, b⟩ := e
    rw [List.pairwise_cons] at hp
    rw [btCeil_cons] at h
    by_cases h1 : k ≤ a
    · rw [if_pos h1] at h
      cases h
      rcases List.mem_cons.mp hm with he | hm2
      · cases he
        exact Nat.le_refl _
      · exact Nat.le_of_lt (hp.1 (q, n) hm2)
    · rw [if_neg h1] at h
      rcases List.mem_cons.mp hm with he | hm2
      · cases he
        exact absurd hk h1
      · exact ih hp.2 p m h q n hm2 hk

theorem head?_min :
    ∀ es : List (Nat × MasterNode N), es.Pairwise (fun a b => a.1 < b.1) →
      ∀ e, es.head? = some e → ∀ q n, (q, n) ∈ es → e.1 ≤ q := by
  intro es
  cases es with
  | nil =>
    intro _ e h
    exact absurd h (by simp)
  | cons x rest =>
    intro hp e h q n hm
    rw [List.head?_cons] at h
    cases h
    rw [List.pairwise_cons] at hp
    rcases List.mem_cons.mp hm with he | hm2
    · cases he
      exact Nat.le_refl _
    · exact Nat.le_of_lt (hp.1 (q, n) hm2)

theorem pairwise_key_unique :
    ∀ es : List (Nat × MasterNode N), es.Pairwise (fun a b => a.1 < b.1) →
      ∀ k : Nat, ∀ a b : MasterNode N, (k, a) ∈ es → (k, b) ∈ es → a = b := by
  intro es
  induction es with
  | nil =>
    intro _ k a b h
    exact absurd h (List.not_mem_nil _)
  | cons e rest ih =>
    intro hp k a b ha hb
    rw [List.pairwise_cons] at hp
    rcases List.mem_cons.mp ha with hea | ha2
    · rcases List.mem_cons.mp hb with heb | hb2
      · rw [← hea] at heb
        injection heb with _ h2
        exact h2.symm
      · cases hea
        exact absurd (hp.1 (k, b) hb2) (Nat.lt_irrefl k)
    · rcases List.mem_cons.mp hb with heb | hb2
      · cases heb
        exact absurd (hp.1 (k, a) ha2) (Nat.lt_irrefl k)
      · exact ih hp.2 k a b ha2 hb2

theorem get_eq_ceil (r : HashRing N) (kh : Nat) (x : Nat × MasterNode N)
    (h : btCeil kh r.virtual_nodes = some x) : get r kh = some x.2.node := by
  simp only [get, h]

theorem get_eq_wrap (r : HashRing N) (kh : Nat)
    (h : btCeil kh r.virtual_nodes = none) :
    get r kh = r.virtual_nodes.head?.map (fun e => e.2.node) := by
  simp only [get, h]

/-! Projection lemmas: which ring fields each operation can change. -/

theorem remove_inner_nextId (r : HashRing N) (node : N) :
    (remove_inner r node).2.nextId = r.nextId := by
  simp only [remove_inner]
  split <;> rfl

theorem remove_inner_nodeHash (r : HashRing N) (node : N) :
    (remove_inner r node).2.nodeHash = r.nodeHash := by
  simp only [remove_inner]
  split <;> rfl

theorem remove_inner_selfHash (r : HashRing N) (node : N) :
    (remove_inner r node).2.selfHash = r.selfHash := by
  simp only [remove_inner]
  split <;> rfl

theorem remove_nodeHash (r : HashRing N) (node : N) :
    (remove r node).2.nodeHash = r.nodeHash :=
  remove_inner_nodeHash r node

theorem insert_nodeHash (r : HashRing N) (node : N) (w pc : Nat) :
    (insert r node w pc).2.nodeHash = r.nodeHash := by
  by_cases hw0 : w = 0
  · simp [insert, hw0]
  · simp only [insert, if_neg hw0]
    split
    · exact remove_inner_nodeHash r node
    · rfl

theorem insert_selfHash (r : HashRing N) (node : N) (w pc : Nat) :
    (insert r node w pc).2.selfHash = r.selfHash := by
  by_cases hw0 : w = 0
  · simp [insert, hw0]
  · simp only [insert, if_neg hw0]
    split
    · exact remove_inner_selfHash r node
    · rfl

theorem compute_congr (r r2 : HashRing N) (node : N) (w : Nat)
    (h : r.nodeHash = r2.nodeHash) :
    compute_virtual_node_hashes r node w = compute_virtual_node_hashes r2 node w := by
  rw [compute_virtual_node_hashes, compute_virtual_node_hashes, h]

/-- Whatever probe index the `HashSet` iteration yields, the probed element is
some member of the candidate set (the set is non-empty for weight at least
1). -/
theorem probe_exists (r : HashRing N) (node : N) (w : Nat) (hw : 1 ≤ w) (pc : Nat) :
    ∃ hp, (compute_virtual_node_hashes r node
        w)[pc % (compute_virtual_node_hashes r node w).length]? = some hp ∧
      hp ∈ compute_virtual_node_hashes r node w := by
  have hne := compute_virtual_node_hashes_ne_nil r node w hw
  have hlen : 0 < (compute_virtual_node_hashes r node w).length :=
    List.length_pos.mpr hne
  have hlt : pc % (compute_virtual_node_hashes r node w).length <
      (compute_virtual_node_hashes r node w).length := Nat.mod_lt _ hlen
  exact ⟨_, List.getElem?_eq_getElem hlt, List.getElem_mem hlt⟩

/-- Two probe indices selecting the same candidate element give the same
insertion result. -/
theorem insert_probe_congr (r : HashRing N) (node : N) (w : Nat) (pc pc2 : Nat)
    (h : (compute_virtual_node_hashes r node
        w)[pc % (compute_virtual_node_hashes r node w).length]? =
      (compute_virtual_node_hashes r node
        w)[pc2 % (compute_virtual_node_hashes r node w).length]?) :
    insert r node w pc = insert r node w pc2 := by
  by_cases hw0 : w = 0
  · simp [insert, hw0]
  · simp only [insert, if_neg hw0, h]

/-- The state written by a non-zero-weight `insert`: all candidate positions
are written with one fresh record (rid `r.nextId`, weight the deduplicated
count), over either the post-`remove_inner` map (when the probed candidate was
occupied) or the unchanged map. -/
theorem insert_virtual_nodes (r : HashRing N) (node : N) (w : Nat) (hw0 : ¬ w = 0)
    (pc hp : Nat)
    (hprobe : (compute_virtual_node_hashes r node
        w)[pc % (compute_virtual_node_hashes r node w).length]? = some hp) :
    (insert r node w pc).2.virtual_nodes =
      (compute_virtual_node_hashes r node w).foldl
        (fun acc x =>
          btInsert x ⟨r.nextId, node, (compute_virtual_node_hashes r node w).length⟩ acc)
        (if (btGet hp r.virtual_nodes).isSome then (remove_inner r node).2.virtual_nodes
         else r.virtual_nodes) := by
  simp only [insert, if_neg hw0, hprobe]
  split
  · rw [remove_inner_nextId]
  · rfl

theorem insert_fst (r : HashRing N) (node : N) (w : Nat) (hw0 : ¬ w = 0)
    (pc hp : Nat)
    (hprobe : (compute_virtual_node_hashes r node
        w)[pc % (compute_virtual_node_hashes r node w).length]? = some hp) :
    (insert r node w pc).1 =
      (if (btGet hp r.virtual_nodes).isSome then (remove_inner r node).1.1 else none) := by
  simp only [insert, if_neg hw0, hprobe]
  split
  · rfl
  · rfl

/-! Bridging `dedupFirstAux` length to `Finset` cardinality, for `len`. -/

theorem dedupFirstAux_length (l : List Nat) :
    (dedupFirstAux [] l).length = l.toFinset.card := by
  have hnd := dedupFirstAux_nodup l []
  rw [← List.toFinset_card_of_nodup hnd]
  congr 1
  ext x
  simp only [List.mem_toFinset]
  rw [mem_dedupFirstAux]
  simp

theorem toFinset_const (l : List Nat) (a : Nat) (hne : l ≠ []) :
    (l.map fun _ => a).toFinset = {a} := by
  ext x
  simp only [List.mem_toFinset, List.mem_map, Finset.mem_singleton]
  constructor
  · rintro ⟨b, _, heq⟩
    exact heq.symm
  · intro hx
    cases l with
    | nil => exact absurd rfl hne
    | cons y ys => exact ⟨y, List.mem_cons_self _ _, hx.symm⟩

theorem filterKeysOut_eq_nil (hs : List Nat) :
    ∀ es : List (Nat × MasterNode N), (∀ e ∈ es, e.1 ∈ hs) → filterKeysOut hs es = [] := by
  intro es
  induction es with
  | nil => intro _; rfl
  | cons e rest ih =>
    intro h
    rw [filterKeysOut_cons, if_pos (h e (List.mem_cons_self _ _))]
    exact ih fun x hx => h x (List.mem_cons_of_mem _ hx)

/-- C8: for every ring state and every probe choice, `insert(node, 0)` returns
no previous node and performs no mutation: the ring, position map included, is
returned unchanged. -/
theorem insert_zero_weight_noop (r : HashRing N) (node : N) (pc : Nat) :
    insert r node 0 pc = (none, r) :=
  rfl

/-- C7: under the capability that digests everything to the constant `1`,
starting from the empty ring and for every probe choice (the candidate sets
are singletons, so all iteration orders agree), `insert(0, 2)` returns no
previous node, `insert(1, 3)` returns node `0` as the displaced node and
leaves exactly the single position `1` owned by node `1` (with effective
weight `1`), and `remove(1)` then returns exactly `1` and leaves the ring
empty. -/
theorem collision_scenario_const1 (pc1 pc2 : Nat) :
    (insert ringConst1 0 2 pc1).1 = none ∧
    (insert ringConst1 0 2 pc1).2.virtual_nodes = [(1, ⟨0, 0, 1⟩)] ∧
    (insert (insert ringConst1 0 2 pc1).2 1 3 pc2).1 = some 0 ∧
    (insert (insert ringConst1 0 2 pc1).2 1 3 pc2).2.virtual_nodes = [(1, ⟨1, 1, 1⟩)] ∧
    (remove (insert (insert ringConst1 0 2 pc1).2 1 3 pc2).2 1).1 = 1 ∧
    (remove (insert (insert ringConst1 0 2 pc1).2 1 3 pc2).2 1).2.virtual_nodes = [] := by
  have e1 : insert ringConst1 0 2 pc1 = insert ringConst1 0 2 0 := by
    apply insert_probe_congr
    rw [show compute_virtual_node_hashes ringConst1 0 2 = [1] by decide]
    rw [show ([1] : List Nat).length = 1 from rfl, Nat.mod_one, Nat.mod_one]
  rw [e1]
  have e2 : insert (insert ringConst1 0 2 0).2 1 3 pc2 =
      insert (insert ringConst1 0 2 0).2 1 3 0 := by
    apply insert_probe_congr
    rw [show compute_virtual_node_hashes (insert ringConst1 0 2 0).2 1 3 = [1] by decide]
    rw [show ([1] : List Nat).length = 1 from rfl, Nat.mod_one, Nat.mod_one]
  rw [e2]
  decide

/-- C9: a hash capability and node exist (node `0` under `hashSelfColl`) such
that inserting the node with weight `3` into an empty ring and then removing it
returns a positive count yet leaves the ring non-empty: position `9` still
references node `0`, and `get` still returns it.  The cause: `remove`
recomputes candidates only for indices below the stored effective weight `2`,
producing `{5}` and missing position `9`, which was placed from index `2`. -/
theorem remove_leaves_stale_position :
    0 < (remove ringSelfColl 0).1 ∧
    (remove ringSelfColl 0).2.virtual_nodes = [(9, ⟨0, 0, 2⟩)] ∧
    is_empty (remove ringSelfColl 0).2 = false ∧
    get (remove ringSelfColl 0).2 7 = some 0 := by
  decide

/-- C2 counterexample: in `ringCross`, the probe for node `0` finds node `0`'s
own record (rid `0`), yet `remove(0)` deletes position `20`, which is currently
owned by node `1`'s record (rid `1`), and counts it: the returned count is `2`
although only one position in the candidate set still points to node `0`'s
record.  This refutes the claim that positions currently owned by other nodes
are not deleted. -/
theorem remove_deletes_foreign_slot :
    get_master_node ringCross 0 = some ⟨0, 0, 2⟩ ∧
    btGet 20 ringCross.virtual_nodes = some ⟨1, 1, 2⟩ ∧
    ((compute_virtual_node_hashes ringCross 0 2).filter
      (fun h => (btGet h ringCross.virtual_nodes).map (fun m => m.rid) = some 0)).length = 1 ∧
    (remove ringCross 0).1 = 2 ∧
    btGet 20 (remove ringCross 0).2.virtual_nodes = none := by
  decide

/-- C3 counterexample: in `ringLenColl` (holding only node `0`, `len = 1`),
node `1` is absent in every sense — no stored record carries it and
`contains_node` is `false` — yet after `insert(1, 1)` the node count `len`
is still `1`, not `2`, because `len` deduplicates by node digest and the
capability digests both nodes to `7`. -/
theorem len_unchanged_by_fresh_insert :
    contains_node ringLenColl 1 = false ∧
    (∀ e ∈ ringLenColl.virtual_nodes, e.2.node ≠ 1) ∧
    len ringLenColl = 1 ∧
    (insert ringLenColl 1 1 0).1 = none ∧
    len (insert ringLenColl 1 1 0).2 = 1 := by
  decide

/-- C4 counterexample: in `ringOnlyOne` the single position `1` is owned by
node `1`, and node `0`'s first virtual-node digest is also `1`, so the probe
finds a record owned by a different logical node; the claim then requires
`remove(0) = 0` with no change and `contains_node 0 = false`, but the code
reports node `0` as present, and `remove(0)` returns `1` and empties the ring
(the probe never compares node identity). -/
theorem probe_ignores_node_identity :
    (∀ e ∈ ringOnlyOne.virtual_nodes, e.2.node ≠ 0) ∧
    contains_node ringOnlyOne 0 = true ∧
    (remove ringOnlyOne 0).1 = 1 ∧
    (remove ringOnlyOne 0).2.virtual_nodes = [] := by
  decide

/-- C5 counterexample: node `0` is present in `ringSelfColl` (its record owns
positions `5` and `9`), yet re-inserting it returns `none` rather than the
previously stored value: the replace path recomputes candidates at the stored
effective weight `2`, obtaining only `{5}`, so position `9` keeps a reference
to the old record and `Arc::try_unwrap` fails.  (Probe index 0 is used; here
both candidates `5` and `9` are occupied, so every iteration order takes the
replace path and returns `none`.) -/
theorem reinsert_returns_none_on_self_collision :
    contains_node ringSelfColl 0 = true ∧
    (5, (⟨0, 0, 2⟩ : MasterNode Nat)) ∈ ringSelfColl.virtual_nodes ∧
    (insert ringSelfColl 0 3 0).1 = none := by
  decide

/-- C1: for every well-formed ring state and every key digest `kh`: `get`
returns `none` exactly when the ring holds zero positions; when some stored
position is at least `kh`, `get` returns the node owning the smallest such
position; when every stored position is below `kh` and the ring is non-empty,
`get` wraps around to the node owning the smallest stored position; and a key
digest equal to a stored position resolves to that position's owner. -/
theorem get_spec (r : HashRing N) (hwf : WF r) (kh : Nat) :
    (get r kh = none ↔ r.virtual_nodes = []) ∧
    ((∃ p m, (p, m) ∈ r.virtual_nodes ∧ kh ≤ p) →
      ∃ p m, (p, m) ∈ r.virtual_nodes ∧ kh ≤ p ∧
        (∀ q n, (q, n) ∈ r.virtual_nodes → kh ≤ q → p ≤ q) ∧
        get r kh = some m.node) ∧
    ((∀ p m, (p, m) ∈ r.virtual_nodes → p < kh) → r.virtual_nodes ≠ [] →
      ∃ p m, (p, m) ∈ r.virtual_nodes ∧
        (∀ q n, (q, n) ∈ r.virtual_nodes → p ≤ q) ∧
        get r kh = some m.node) ∧
    (∀ m, (kh, m) ∈ r.virtual_nodes → get r kh = some m.node) := by
  refine ⟨?_, ?_, ?_, ?_⟩
  · cases hc : btCeil kh r.virtual_nodes with
    | some x =>
      rw [get_eq_ceil r kh x hc]
      constructor
      · intro h
        exact absurd h (by simp)
      · intro h
        obtain ⟨hmem, _⟩ := btCeil_mem kh r.virtual_nodes x.1 x.2 hc
        rw [h] at hmem
        exact absurd hmem (List.not_mem_nil _)
    | none =>
      rw [get_eq_wrap r kh hc]
      cases hes : r.virtual_nodes with
      | nil => simp
      | cons e rest => simp
  · rintro ⟨p, m, hm, hk⟩
    cases hc : btCeil kh r.virtual_nodes with
    | none =>
      rw [btCeil_eq_none_iff] at hc
      exact absurd hk (Nat.not_le.mpr (hc p m hm))
    | some x =>
      obtain ⟨hxm, hxk⟩ := btCeil_mem kh r.virtual_nodes x.1 x.2 hc
      refine ⟨x.1, x.2, hxm, hxk, ?_, get_eq_ceil r kh x hc⟩
      intro q n hq hkq
      exact btCeil_min kh r.virtual_nodes hwf x.1 x.2 hc q n hq hkq
  · intro hall hne
    cases hc : btCeil kh r.virtual_nodes with
    | some x =>
      obtain ⟨hxm, hxk⟩ := btCeil_mem kh r.virtual_nodes x.1 x.2 hc
      exact absurd hxk (Nat.not_le.mpr (hall x.1 x.2 hxm))
    | none =>
      cases hes : r.virtual_nodes with
      | nil => exact absurd hes hne
      | cons e rest =>
        have hw2 : List.Pairwise (fun a b => a.1 < b.1) (e :: rest) := by
          rw [← hes]
          exact hwf
        refine ⟨e.1, e.2, ?_, ?_, ?_⟩
        · exact List.mem_cons_self _ _
        · intro q n hq
          exact head?_min (e :: rest) hw2 e rfl q n hq
        · rw [get_eq_wrap r kh hc, hes]
          rfl
  · intro m hm
    cases hc : btCeil kh r.virtual_nodes with
    | none =>
      rw [btCeil_eq_none_iff] at hc
      exact absurd (hc kh m hm) (Nat.lt_irrefl kh)
    | some x =>
      obtain ⟨hxm, hxk⟩ := btCeil_mem kh r.virtual_nodes x.1 x.2 hc
      have hmin := btCeil_min kh r.virtual_nodes hwf x.1 x.2 hc kh m hm (Nat.le_refl kh)
      have hx1 : x.1 = kh := Nat.le_antisymm hmin hxk
      have hnode : x.2 = m := by
        apply pairwise_key_unique r.virtual_nodes hwf kh x.2 m _ hm
        rw [← hx1]
        exact hxm
      rw [get_eq_ceil r kh x hc, hnode]

/-- Witness for C1: in `ringGetDemo` (positions 5, 7, 9), the key digest 7
resolves to the owner of position 7, as an instance of `get_spec`. -/
theorem get_spec_witness : WF ringGetDemo ∧ get ringGetDemo 7 = some 1 := by
  refine ⟨by decide, ?_⟩
  exact (get_spec ringGetDemo (by decide) 7).2.2.2 ⟨1, 1, 1⟩ (by decide)

/-- C2 (amended): when `remove(node)`'s probe finds a master record, `remove`
recomputes the candidate set at the record's stored node and weight and removes
every candidate position present in the map, regardless of which record it
currently points to: the returned count is the number of candidate positions
present, and the resulting map is the old map minus the candidate keys. -/
theorem remove_spec (r : HashRing N) (hwf : WF r) (node : N) (m : MasterNode N)
    (hm : get_master_node r node = some m) :
    (remove r node).1 =
      (presentHashes r.virtual_nodes
        (compute_virtual_node_hashes r m.node m.weight)).length ∧
    (remove r node).2.virtual_nodes =
      filterKeysOut (compute_virtual_node_hashes r m.node m.weight) r.virtual_nodes := by
  have hk := WF_keys_nodup r hwf
  have hnd := compute_virtual_node_hashes_nodup r m.node m.weight
  constructor
  · simp only [remove, remove_inner, hm]
    exact removeLoop_count _ hnd _ hk
  · simp only [remove, remove_inner, hm]
    exact removeLoop_final _ _ hk

/-- Witness for C2 (amended): `remove_spec` instantiated at `ringCross` and
node `0`, whose probe finds record `⟨0, 0, 2⟩`. -/
theorem remove_spec_witness :
    (remove ringCross 0).1 =
      (presentHashes ringCross.virtual_nodes
        (compute_virtual_node_hashes ringCross 0 2)).length ∧
    (remove ringCross 0).2.virtual_nodes =
      filterKeysOut (compute_virtual_node_hashes ringCross 0 2) ringCross.virtual_nodes :=
  remove_spec ringCross (by decide) 0 ⟨0, 0, 2⟩ (by decide)

/-- C4 (amended): for every ring state and every node whose first virtual-node
digest is absent from the position map, `remove` returns 0 and leaves the ring
unchanged, and `contains_node`, which uses the same probe, returns `false`.
(The probe checks only occupancy of the position, never node identity.) -/
theorem remove_absent_spec (r : HashRing N) (node : N)
    (h : btGet (r.nodeHash node 0) r.virtual_nodes = none) :
    remove r node = (0, r) ∧ contains_node r node = false := by
  have hgm : get_master_node r node = none := by
    rw [get_master_node_eq_btGet, h]
  constructor
  · simp only [remove, remove_inner, hgm]
  · rw [contains_node, hgm]
    rfl

/-- Witness for C4 (amended): node `1` digests to the absent position `99` in
`ringAbsent`, so removal is a no-op and containment is `false`. -/
theorem remove_absent_spec_witness :
    btGet (ringAbsent.nodeHash 1 0) ringAbsent.virtual_nodes = none ∧
    remove ringAbsent 1 = (0, ringAbsent) ∧ contains_node ringAbsent 1 = false := by
  have h : btGet (ringAbsent.nodeHash 1 0) ringAbsent.virtual_nodes = none := by decide
  obtain ⟨h1, h2⟩ := remove_absent_spec ringAbsent 1 h
  exact ⟨h, h1, h2⟩

/-- C10: for every ring, node, weight at least 1 and probe choice, `insert`
never panics: with all three unchecked extractions (`NonZeroU64::new(weight)`,
the probed candidate digest, `NonZeroU64::new(actual_weight)`) made explicit,
the checked insert returns exactly the unchecked insert's result wrapped in
`some`, because the candidate set of a weight-1-or-more insertion is never
empty. -/
theorem insert_no_panic (r : HashRing N) (node : N) (w : Nat) (hw : 1 ≤ w) (pc : Nat) :
    insertChecked r node w pc = some (insert r node w pc) := by
  have hw0 : ¬ w = 0 := by omega
  obtain ⟨hp, hprobe, _⟩ := probe_exists r node w hw pc
  have hlen : ¬ (compute_virtual_node_hashes r node w).length = 0 := by
    intro hc
    exact compute_virtual_node_hashes_ne_nil r node w hw (List.length_eq_zero.mp hc)
  simp only [insertChecked, insert, if_neg hw0, nonZeroNew, hprobe, if_neg hlen]

/-- Witness for C10: a weight-2 insertion into the constant-1-capability ring
panics nowhere. -/
theorem insert_no_panic_witness :
    insertChecked ringConst1 0 2 3 = some (insert ringConst1 0 2 3) :=
  insert_no_panic ringConst1 0 2 (by decide) 3

/-- C3 (amended): for every `insert(node, weight)` with weight at least 1 and
every probe choice, the candidate positions are the deduplicated digests of
`(node, i)` for `i` below the weight; after the call every candidate position
maps to the single fresh record whose stored effective weight is the
deduplicated count; and `len()` increases by exactly one provided every
candidate position is absent from the ring and the node's node-only digest
(by which `len` deduplicates) differs from the digests of all stored nodes. -/
theorem insert_spec (r : HashRing N) (node : N) (w : Nat) (hw : 1 ≤ w) (pc : Nat) :
    (∀ h ∈ compute_virtual_node_hashes r node w,
      btGet h (insert r node w pc).2.virtual_nodes =
        some ⟨r.nextId, node, (compute_virtual_node_hashes r node w).length⟩) ∧
    ((∀ h ∈ compute_virtual_node_hashes r node w, btGet h r.virtual_nodes = none) →
      (∀ e ∈ r.virtual_nodes, r.selfHash e.2.node ≠ r.selfHash node) →
      len (insert r node w pc).2 = len r + 1) := by
  have hw0 : ¬ w = 0 := by omega
  obtain ⟨hp, hprobe, hpmem⟩ := probe_exists r node w hw pc
  obtain ⟨h0, t, hcs⟩ : ∃ h0 t, compute_virtual_node_hashes r node w = h0 :: t := by
    cases hcs : compute_virtual_node_hashes r node w with
    | nil => exact absurd hcs (compute_virtual_node_hashes_ne_nil r node w hw)
    | cons a b => exact ⟨a, b, rfl⟩
  have hnd : (h0 :: t).Nodup := by
    rw [← hcs]
    exact compute_virtual_node_hashes_nodup r node w
  have hvn := insert_virtual_nodes r node w hw0 pc hp hprobe
  rw [hcs] at hvn
  constructor
  · intro h hmem
    rw [hcs] at hmem ⊢
    rw [hvn]
    exact btGet_foldl_mem _ h _ hnd hmem _
  · intro hfresh hdig
    have hp0 : btGet hp r.virtual_nodes = none := hfresh hp hpmem
    have hps : ¬ (btGet hp r.virtual_nodes).isSome = true := by
      rw [hp0]
      simp
    rw [if_neg hps] at hvn
    have hperm : ((h0 :: t).foldl
        (fun acc x => btInsert x ⟨r.nextId, node, (h0 :: t).length⟩ acc)
        r.virtual_nodes).Perm
          (((h0 :: t).map fun h => (h, ⟨r.nextId, node, (h0 :: t).length⟩)) ++
            r.virtual_nodes) := by
      apply foldl_btInsert_perm _ _ hnd
      intro h hmem
      rw [← btGet_eq_none_iff]
      exact hfresh h (by rw [hcs]; exact hmem)
    have hself := insert_selfHash r node w pc
    have hnotmem : r.selfHash node ∉
        (r.virtual_nodes.map fun e => r.selfHash e.2.node).toFinset := by
      intro hc
      rw [List.mem_toFinset, List.mem_map] at hc
      obtain ⟨e, he, heq⟩ := hc
      exact hdig e he heq
    simp only [len]
    rw [hself, hvn, dedupFirstAux_length, dedupFirstAux_length,
      List.toFinset_eq_of_perm _ _ (List.Perm.map _ hperm), List.map_append, List.toFinset_append,
      List.map_map,
      show ((fun e : Nat × MasterNode N => r.selfHash e.2.node) ∘
        (fun h => (h, (⟨r.nextId, node, (h0 :: t).length⟩ : MasterNode N)))) =
        (fun _ => r.selfHash node) from rfl,
      toFinset_const _ _ (List.cons_ne_nil h0 t), ← Finset.insert_eq,
      Finset.card_insert_of_not_mem hnotmem]

/-- Witness for C3 (amended): inserting the fresh node `1` (candidate position
99, node digest 1) into `ringAbsent` writes its record and raises `len` by
one. -/
theorem insert_spec_witness :
    btGet 99 (insert ringAbsent 1 1 0).2.virtual_nodes = some ⟨1, 1, 1⟩ ∧
    len (insert ringAbsent 1 1 0).2 = len ringAbsent + 1 := by
  have h := insert_spec ringAbsent 1 1 (by decide) 0
  exact ⟨h.1 99 (by decide), h.2 (by decide) (by decide)⟩

/-- C6: for every well-formed ring, every probe choice, and every node
inserted with weight `w ≥ 1` whose candidate digests `(node, 0) .. (node, w-1)`
are pairwise distinct and absent from the ring (hence not overwritten by any
other insert), `remove` returns exactly `w` — the effective weight of that
insertion — and `contains_node` is `false` afterwards. -/
theorem remove_complete (r : HashRing N) (hwf : WF r) (node : N) (w : Nat) (hw : 1 ≤ w)
    (hinj : ∀ i, i < w → ∀ j, j < w → i ≠ j → r.nodeHash node i ≠ r.nodeHash node j)
    (hfresh : ∀ i, i < w → btGet (r.nodeHash node i) r.virtual_nodes = none) (pc : Nat) :
    (remove (insert r node w pc).2 node).1 = w ∧
    contains_node (remove (insert r node w pc).2 node).2 node = false := by
  have hw0 : ¬ w = 0 := by omega
  have hfresh2 : ∀ h ∈ compute_virtual_node_hashes r node w,
      btGet h r.virtual_nodes = none := by
    intro h hmem
    obtain ⟨i, hi, hhi⟩ := (mem_compute_virtual_node_hashes r node w h).mp hmem
    rw [← hhi]
    exact hfresh i hi
  obtain ⟨h0, t, hcs⟩ : ∃ h0 t, compute_virtual_node_hashes r node w = h0 :: t := by
    cases hcs : compute_virtual_node_hashes r node w with
    | nil => exact absurd hcs (compute_virtual_node_hashes_ne_nil r node w hw)
    | cons a b => exact ⟨a, b, rfl⟩
  have hnd : (h0 :: t).Nodup := by
    rw [← hcs]
    exact compute_virtual_node_hashes_nodup r node w
  have hlen : (h0 :: t).length = w := by
    rw [← hcs, compute_virtual_node_hashes_of_inj r node w hinj, List.length_map,
      List.length_range]
  obtain ⟨hp, hprobe, hpmem⟩ := probe_exists r node w hw pc
  have hp0 : btGet hp r.virtual_nodes = none := hfresh2 hp hpmem
  have hps : ¬ (btGet hp r.virtual_nodes).isSome = true := by
    rw [hp0]
    simp
  have hvn := insert_virtual_nodes r node w hw0 pc hp hprobe
  rw [hcs] at hvn
  rw [if_neg hps] at hvn
  have hperm : (insert r node w pc).2.virtual_nodes.Perm
      (((h0 :: t).map fun h => (h, (⟨r.nextId, node, (h0 :: t).length⟩ : MasterNode N))) ++
        r.virtual_nodes) := by
    rw [hvn]
    apply foldl_btInsert_perm _ _ hnd
    intro h hmem
    rw [← btGet_eq_none_iff]
    exact hfresh2 h (by rw [hcs]; exact hmem)
  have hkeys1 : (keys (insert r node w pc).2.virtual_nodes).Nodup := by
    have hk2 : (keys (((h0 :: t).map
        fun h => (h, (⟨r.nextId, node, (h0 :: t).length⟩ : MasterNode N))) ++
          r.virtual_nodes)).Nodup := by
      rw [keys, List.map_append, List.map_map,
        show (Prod.fst ∘ fun h : Nat =>
          (h, (⟨r.nextId, node, (h0 :: t).length⟩ : MasterNode N))) = id from rfl,
        List.map_id, List.nodup_append]
      refine ⟨hnd, WF_keys_nodup r hwf, ?_⟩
      intro a ha hb
      exact (btGet_eq_none_iff a r.virtual_nodes).mp
        (hfresh2 a (by rw [hcs]; exact ha)) hb
    exact (List.Perm.nodup_iff (List.Perm.map Prod.fst hperm)).mpr hk2
  have hget1 : ∀ h ∈ h0 :: t, btGet h (insert r node w pc).2.virtual_nodes =
      some ⟨r.nextId, node, (h0 :: t).length⟩ := by
    intro h hmem
    rw [hvn]
    exact btGet_foldl_mem _ h _ hnd hmem _
  have hnh1 : (insert r node w pc).2.nodeHash = r.nodeHash := insert_nodeHash r node w pc
  have h0eq : h0 = r.nodeHash node 0 := by
    have hh := compute_virtual_node_hashes_head r node w hw
    rw [hcs, List.head?_cons] at hh
    injection hh
  have hgm1 : get_master_node (insert r node w pc).2 node =
      some ⟨r.nextId, node, (h0 :: t).length⟩ := by
    rw [get_master_node_eq_btGet, hnh1, ← h0eq]
    exact hget1 h0 (List.mem_cons_self _ _)
  have hcompute1 : compute_virtual_node_hashes (insert r node w pc).2 node (h0 :: t).length =
      h0 :: t := by
    rw [hlen, compute_congr (insert r node w pc).2 r node w hnh1, hcs]
  have hrm1 : (remove (insert r node w pc).2 node).1 =
      (presentHashes (insert r node w pc).2.virtual_nodes (h0 :: t)).length := by
    simp only [remove, remove_inner, hgm1, hcompute1]
    exact removeLoop_count _ hnd _ hkeys1
  have hrm2 : (remove (insert r node w pc).2 node).2.virtual_nodes =
      filterKeysOut (h0 :: t) (insert r node w pc).2.virtual_nodes := by
    simp only [remove, remove_inner, hgm1, hcompute1]
    exact removeLoop_final _ _ hkeys1
  constructor
  · rw [hrm1, presentHashes_all]
    · exact hlen
    · intro x hx
      rw [← btGet_isSome_iff, hget1 x hx]
      rfl
  · rw [contains_node, get_master_node_eq_btGet, remove_nodeHash, hnh1, ← h0eq, hrm2,
      btGet_filterKeysOut_mem (h0 :: t) h0 (List.mem_cons_self h0 t)]
    rfl

/-- Witness for C6: node `1` in `ringAbsent` digests to the fresh, distinct
positions 99 and 100; inserting it with weight 2 and removing it returns 2 and
leaves it absent. -/
theorem remove_complete_witness :
    (remove (insert ringAbsent 1 2 0).2 1).1 = 2 ∧
    contains_node (remove (insert ringAbsent 1 2 0).2 1).2 1 = false :=
  remove_complete ringAbsent (by decide) 1 2 (by decide) (by decide) (by decide) 0

/-- C5 (amended): for a node inserted into an empty ring with weight `w ≥ 1`
whose candidate digests are pairwise distinct, a second insert of the same
node with weight `w2`, `1 ≤ w2 ≤ w`, returns the previously stored node value
for every choice of probed candidate (each second-insert candidate digest is
then an occupied position, so every iteration order takes the replace path);
and for every second weight `w2 ≥ 1` and every probe choice, `len()` remains
1 afterwards. -/
theorem reinsert_spec (r0 : HashRing N) (hempty : r0.virtual_nodes = [])
    (node : N) (w w2 : Nat) (hw : 1 ≤ w) (hw2 : 1 ≤ w2)
    (hinj : ∀ i, i < w → ∀ j, j < w → i ≠ j → r0.nodeHash node i ≠ r0.nodeHash node j)
    (pc pc2 : Nat) :
    (w2 ≤ w → (insert (insert r0 node w pc).2 node w2 pc2).1 = some node) ∧
    len (insert (insert r0 node w pc).2 node w2 pc2).2 = 1 := by
  have hw0 : ¬ w = 0 := by omega
  have hw20 : ¬ w2 = 0 := by omega
  obtain ⟨h0, t, hcs1⟩ : ∃ h0 t, compute_virtual_node_hashes r0 node w = h0 :: t := by
    cases hcs : compute_virtual_node_hashes r0 node w with
    | nil => exact absurd hcs (compute_virtual_node_hashes_ne_nil r0 node w hw)
    | cons a b => exact ⟨a, b, rfl⟩
  have hnd1 : (h0 :: t).Nodup := by
    rw [← hcs1]
    exact compute_virtual_node_hashes_nodup r0 node w
  have hlen1 : (h0 :: t).length = w := by
    rw [← hcs1, compute_virtual_node_hashes_of_inj r0 node w hinj, List.length_map,
      List.length_range]
  obtain ⟨hp1, hprobe1, _⟩ := probe_exists r0 node w hw pc
  have hps1 : ¬ (btGet hp1 r0.virtual_nodes).isSome = true := by
    rw [hempty]
    simp [btGet]
  have hvn1 := insert_virtual_nodes r0 node w hw0 pc hp1 hprobe1
  rw [hcs1, if_neg hps1, hempty] at hvn1
  have hperm1 : (insert r0 node w pc).2.virtual_nodes.Perm
      ((h0 :: t).map fun h => (h, (⟨r0.nextId, node, (h0 :: t).length⟩ : MasterNode N))) := by
    rw [hvn1]
    have hpm := foldl_btInsert_perm (⟨r0.nextId, node, (h0 :: t).length⟩ : MasterNode N)
      (h0 :: t) hnd1 [] (by intro h _ hc; simp [keys] at hc)
    rw [List.append_nil] at hpm
    exact hpm
  have hkeys1 : (keys (insert r0 node w pc).2.virtual_nodes).Nodup := by
    have hk2 : (keys ((h0 :: t).map
        fun h => (h, (⟨r0.nextId, node, (h0 :: t).length⟩ : MasterNode N)))).Nodup := by
      rw [keys, List.map_map,
        show (Prod.fst ∘ fun h : Nat =>
          (h, (⟨r0.nextId, node, (h0 :: t).length⟩ : MasterNode N))) = id from rfl,
        List.map_id]
      exact hnd1
    exact (List.Perm.nodup_iff (List.Perm.map Prod.fst hperm1)).mpr hk2
  have hget1 : ∀ h ∈ h0 :: t, btGet h (insert r0 node w pc).2.virtual_nodes =
      some ⟨r0.nextId, node, (h0 :: t).length⟩ := by
    intro h hmem
    rw [hvn1]
    exact btGet_foldl_mem _ h _ hnd1 hmem _
  have hmem_all : ∀ e ∈ (insert r0 node w pc).2.virtual_nodes, e.1 ∈ h0 :: t := by
    intro e he
    have hh := (List.Perm.mem_iff hperm1).mp he
    obtain ⟨h, hh2, heq⟩ := List.mem_map.mp hh
    rw [← heq]
    exact hh2
  have hnode1 : ∀ e ∈ (insert r0 node w pc).2.virtual_nodes, e.2.node = node := by
    intro e he
    have hh := (List.Perm.mem_iff hperm1).mp he
    obtain ⟨h, hh2, heq⟩ := List.mem_map.mp hh
    rw [← heq]
  have hnh1 : (insert r0 node w pc).2.nodeHash = r0.nodeHash := insert_nodeHash r0 node w pc
  have h0eq : h0 = r0.nodeHash node 0 := by
    have hh := compute_virtual_node_hashes_head r0 node w hw
    rw [hcs1, List.head?_cons] at hh
    injection hh
  have hgm : get_master_node (insert r0 node w pc).2 node =
      some ⟨r0.nextId, node, (h0 :: t).length⟩ := by
    rw [get_master_node_eq_btGet, hnh1, ← h0eq]
    exact hget1 h0 (List.mem_cons_self _ _)
  have hcompute : compute_virtual_node_hashes (insert r0 node w pc).2 node
      (h0 :: t).length = h0 :: t := by
    rw [hlen1, compute_congr (insert r0 node w pc).2 r0 node w hnh1, hcs1]
  obtain ⟨hl, hgl, hlmem⟩ := getLast?_cons_exists h0 t
  have hval : (remove_inner (insert r0 node w pc).2 node).1.1 = some node := by
    simp only [remove_inner, hgm, hcompute]
    rw [removeLoop_removed _ hnd1 _ hkeys1]
    simp only [removedSpec, hgl, hget1 hl hlmem,
      filterKeysOut_eq_nil (h0 :: t) _ hmem_all, List.all_nil]
    rfl
  have hriv : (remove_inner (insert r0 node w pc).2 node).2.virtual_nodes =
      filterKeysOut (h0 :: t) (insert r0 node w pc).2.virtual_nodes := by
    simp only [remove_inner, hgm, hcompute]
    exact removeLoop_final _ _ hkeys1
  have hnd2 : (compute_virtual_node_hashes (insert r0 node w pc).2 node w2).Nodup :=
    compute_virtual_node_hashes_nodup _ node w2
  obtain ⟨hp2, hprobe2, hp2mem⟩ := probe_exists (insert r0 node w pc).2 node w2 hw2 pc2
  have hvn2 := insert_virtual_nodes (insert r0 node w pc).2 node w2 hw20 pc2 hp2 hprobe2
  constructor
  · intro hle
    have hp2in : hp2 ∈ h0 :: t := by
      obtain ⟨i, hi, hhi⟩ :=
        (mem_compute_virtual_node_hashes _ node w2 hp2).mp hp2mem
      rw [← hcs1]
      apply (mem_compute_virtual_node_hashes r0 node w hp2).mpr
      exact ⟨i, by omega, by rw [← hhi, hnh1]⟩
    have hps2 : (btGet hp2 (insert r0 node w pc).2.virtual_nodes).isSome = true := by
      rw [hget1 hp2 hp2in]
      rfl
    rw [insert_fst (insert r0 node w pc).2 node w2 hw20 pc2 hp2 hprobe2, if_pos hps2]
    exact hval
  · have hBnode : ∀ e ∈ (if (btGet hp2 (insert r0 node w pc).2.virtual_nodes).isSome
        then (remove_inner (insert r0 node w pc).2 node).2.virtual_nodes
        else (insert r0 node w pc).2.virtual_nodes), e.2.node = node := by
      intro e he
      by_cases hc : (btGet hp2 (insert r0 node w pc).2.virtual_nodes).isSome = true
      · rw [if_pos hc, hriv] at he
        exact hnode1 e ((mem_filterKeysOut _ e _).mp he).1
      · rw [if_neg hc] at he
        exact hnode1 e he
    have hnode2 : ∀ e ∈ (insert (insert r0 node w pc).2 node w2 pc2).2.virtual_nodes,
        e.2.node = node := by
      intro e he
      rw [hvn2] at he
      rcases mem_foldl_btInsert _ _ _ _ he with h | h
      · rw [h]
      · exact hBnode e h
    have hne2 : (insert (insert r0 node w pc).2 node w2 pc2).2.virtual_nodes ≠ [] := by
      have hg := btGet_foldl_mem
        (⟨(insert r0 node w pc).2.nextId, node,
          (compute_virtual_node_hashes (insert r0 node w pc).2 node w2).length⟩ : MasterNode N)
        hp2 _ hnd2 hp2mem
        (if (btGet hp2 (insert r0 node w pc).2.virtual_nodes).isSome
         then (remove_inner (insert r0 node w pc).2 node).2.virtual_nodes
         else (insert r0 node w pc).2.virtual_nodes)
      rw [← hvn2] at hg
      intro hnil
      rw [hnil] at hg
      exact absurd hg (by simp [btGet])
    simp only [len]
    rw [dedupFirstAux_const
      ((insert (insert r0 node w pc).2 node w2 pc2).2.virtual_nodes.map
        fun e => (insert (insert r0 node w pc).2 node w2 pc2).2.selfHash e.2.node)
      ((insert (insert r0 node w pc).2 node w2 pc2).2.selfHash node)
      (fun hnil => hne2 (List.map_eq_nil_iff.mp hnil))
      (by
        intro x hx
        obtain ⟨e, he, heq⟩ := List.mem_map.mp hx
        rw [← heq, hnode2 e he])]
    rfl

/-- Witness for C5 (amended): node `0` digests to the distinct positions 50
and 51 (`nodeHash n i = 50 + i`); inserting it with weight 2 into the empty
ring and re-inserting with weight 2 (under the probe choices 5 and 7) returns
the stored value and keeps one node. -/
theorem reinsert_spec_witness :
    (insert (insert (⟨[], fun _ i => 50 + i, fun n => n, 0⟩ : HashRing Nat) 0 2 5).2
      0 2 7).1 = some 0 ∧
    len (insert (insert (⟨[], fun _ i => 50 + i, fun n => n, 0⟩ : HashRing Nat) 0 2 5).2
      0 2 7).2 = 1 := by
  have h := reinsert_spec ⟨[], fun _ i => 50 + i, fun n => n, 0⟩ rfl 0 2 2 (by decide)
    (by decide) (by decide) 5 7
  exact ⟨h.1 (by decide), h.2⟩

end Hulahoop
